import Mathlib

/-!
Verification of the Draco attribute-compression sample:
`SequentialQuantizationAttributeDecoder` (sequential quantization attribute
decoding) and the `PointCloudEncoder` dependency-ordering layer.

Floating-point values are modelled as exact rationals (`ℚ`): the claims under
study are structural (which value is written where, which reads fail) or hold
in exact arithmetic, and the spec itself states the numeric properties "up to
floating-point rounding".  Machine integers are modelled as `Int`/`Nat` with
explicit 32-bit wraparound where overflow matters.  Fallible code returns
`Option`.
-/

namespace Draco

/-- Two's-complement wraparound of an integer to the `int32_t` range
`[-2^31, 2^31)`, used to model C++ 32-bit signed arithmetic.  (Signed overflow
is undefined behaviour in C++; this adopts the usual wraparound semantics of
the generated code.) -/
def int32Wrap (z : Int) : Int := (z + 2 ^ 31) % 2 ^ 32 - 2 ^ 31

/-- `const int32_t max_quantized_value = (1 << (quantization_bits_)) - 1;`
from `SequentialQuantizationAttributeDecoder::DequantizeValues`, evaluated in
C++ `int32_t` arithmetic: the shift count is masked modulo the word size and
the shift and the subtraction wrap around. -/
def maxQuantizedValue (bits : Nat) : Int :=
  int32Wrap (int32Wrap (2 ^ (bits % 32)) - 1)

/-- Modelled from the spec: the `Dequantizer` numeric core
(`core/quantization_utils.h`, not part of the source sample).  It is a pure
value parameterized by the scale factor computed at `Init` time. -/
structure Dequantizer where
  scale : ℚ
deriving DecidableEq

/-- Modelled from the spec: `Dequantizer::Init(range, max_quantized_value)`
stores `scale = range / max_quantized_value`, treating the scale as 0 when
`max_quantized_value` is 0 to avoid a division by zero. -/
def Dequantizer.init (range : ℚ) (max_quantized_value : Int) : Dequantizer :=
  if max_quantized_value = 0 then ⟨0⟩ else ⟨range / (max_quantized_value : ℚ)⟩

/-- Modelled from the spec: `Dequantizer::DequantizeFloat(code)` returns
`code * scale`. -/
def Dequantizer.dequantizeFloat (d : Dequantizer) (code : Int) : ℚ :=
  (code : ℚ) * d.scale

/-- The decoder state that `DequantizeValues` reads: the attribute's component
count and the header fields stored by `DecodeQuantizedDataInfo`
(`quantization_bits_` as the decoded byte, `max_value_dif_`, `min_value_`). -/
structure QuantState where
  num_components : Nat
  quantization_bits : Nat
  max_value_dif : ℚ
  min_value : List ℚ
deriving DecidableEq

/-- Bounds-checked vector access, `std::vector::at`: `none` models the
out-of-range fault (a thrown `std::out_of_range`), which never returns. -/
def atOpt : List Int → Nat → Option Int
  | [], _ => none
  | x :: _, 0 => some x
  | _ :: xs, n + 1 => atOpt xs n

/-- The element at index `i`, with default 0 out of range (only used in
statements whose hypotheses put `i` in range). -/
def atD (l : List Int) (i : Nat) : Int := (atOpt l i).getD 0

/-- The inner component loop of `DequantizeValues` for one point: starting at
component `c` with `k` components left, reads code `values()->at(base + c)`,
dequantizes it and adds `min_value_[c]`, producing the per-point value list
`att_val`.  `none` models the `at` fault on a short integer array. -/
def dequantizeComps (dq : Dequantizer) (minv : List ℚ) (codes : List Int)
    (base : Nat) : Nat → Nat → Option (List ℚ)
  | _, 0 => some []
  | c, k + 1 =>
    match atOpt codes (base + c) with
    | none => none
    | some code =>
      match dequantizeComps dq minv codes base (c + 1) k with
      | none => none
      | some rest => some ((dq.dequantizeFloat code + minv.getD c 0) :: rest)

/-- The outer point loop of `DequantizeValues`: for points `i, i+1, ...`
(`k` points left), build each point's `att_val` and record the write
`attribute()->buffer()->Write(out_byte_pos, att_val, entry_size)` as the pair
(byte offset, values); `entry_size = sizeof(float) * num_components = 4 * C`
and `out_byte_pos` advances by `entry_size` per point. -/
def dequantizeLoop (dq : Dequantizer) (minv : List ℚ) (codes : List Int)
    (C : Nat) : Nat → Nat → Option (List (Nat × List ℚ))
  | _, 0 => some []
  | i, k + 1 =>
    match dequantizeComps dq minv codes (i * C) 0 C with
    | none => none
    | some vals =>
      match dequantizeLoop dq minv codes C (i + 1) k with
      | none => none
      | some rest => some ((i * (4 * C), vals) :: rest)

/-- `SequentialQuantizationAttributeDecoder::DequantizeValues(num_values)`:
computes `max_quantized_value = (1 << quantization_bits_) - 1`, initializes a
single `Dequantizer` once with `(max_value_dif_, max_quantized_value)`, runs
the two nested loops and returns `true`; the only non-`true` outcome (`none`)
is the fault of a bounds-checked `values()->at` on a short integer array.
The result carries the list of attribute-buffer writes. -/
def dequantizeValues (st : QuantState) (codes : List Int) (num_values : Nat) :
    Option (Bool × List (Nat × List ℚ)) :=
  match dequantizeLoop
      (Dequantizer.init st.max_value_dif (maxQuantizedValue st.quantization_bits))
      st.min_value codes st.num_components 0 num_values with
  | none => none
  | some writes => some (true, writes)

/-- `SequentialQuantizationAttributeDecoder::StoreValues(num_values)` just
returns `DequantizeValues(num_values)`. -/
def storeValues (st : QuantState) (codes : List Int) (num_values : Nat) :
    Option (Bool × List (Nat × List ℚ)) :=
  dequantizeValues st codes num_values

/-- `DecoderBuffer`: a byte array and a read position. -/
structure DecoderBuffer where
  data : List Nat
  pos : Nat
deriving DecidableEq

/-- `DecoderBuffer::Decode(out, size)`: fails (without moving the position)
when fewer than `size` bytes remain, otherwise yields the `size` bytes at the
current position and advances it. -/
def DecoderBuffer.decode (b : DecoderBuffer) (size : Nat) :
    Option (List Nat × DecoderBuffer) :=
  if b.pos + size ≤ b.data.length then
    some ((b.data.drop b.pos).take size, ⟨b.data, b.pos + size⟩)
  else none

/-- The quantization header stored by `DecodeQuantizedDataInfo`:
`min_value_[0..C)`, `max_value_dif_` and the `quantization_bits_` byte. -/
structure QuantHeader where
  min_value : List ℚ
  max_value_dif : ℚ
  quantization_bits : Nat
deriving DecidableEq

/-- `SequentialQuantizationAttributeDecoder::DecodeQuantizedDataInfo()`:
reads, in order, `sizeof(float) * num_components` bytes into `min_value_`,
then 4 bytes into `max_value_dif_`, then 1 byte into `quantization_bits_`,
failing as soon as a read finds insufficient remaining bytes.  The decoded
byte is stored with no range check.  `floatOfBytes` is the host-native
interpretation of 4 raw bytes as a 32-bit float (kept abstract: no claim
depends on the bit-level float format). -/
def decodeQuantizedDataInfo (floatOfBytes : List Nat → ℚ)
    (num_components : Nat) (b : DecoderBuffer) :
    Option (QuantHeader × DecoderBuffer) :=
  match b.decode (4 * num_components) with
  | none => none
  | some (minBytes, b1) =>
    match b1.decode 4 with
    | none => none
    | some (rangeBytes, b2) =>
      match b2.decode 1 with
      | none => none
      | some (bitsBytes, b3) =>
        some (⟨(List.range num_components).map
                  (fun c => floatOfBytes ((minBytes.drop (4 * c)).take 4)),
               floatOfBytes rangeBytes, bitsBytes.getD 0 0⟩, b3)

/-- `SequentialQuantizationAttributeDecoder::DecodeIntegerValues`: first
`DecodeQuantizedDataInfo()`, and only on its success delegates to
`SequentialIntegerAttributeDecoder::DecodeIntegerValues` (the base class,
out of scope, kept abstract as `base`). -/
def decodeIntegerValues {α : Type} (floatOfBytes : List Nat → ℚ)
    (num_components : Nat) (base : QuantHeader → DecoderBuffer → Option α)
    (b : DecoderBuffer) : Option α :=
  match decodeQuantizedDataInfo floatOfBytes num_components b with
  | none => none
  | some (hdr, b1) => base hdr b1

/-- The scalar data types of a `PointAttribute` (`DataType` enum). -/
inductive DataType where
  | DT_INVALID
  | DT_INT8
  | DT_UINT8
  | DT_INT16
  | DT_UINT16
  | DT_INT32
  | DT_UINT32
  | DT_INT64
  | DT_UINT64
  | DT_FLOAT32
  | DT_FLOAT64
  | DT_BOOL
deriving DecidableEq

/-- `SequentialQuantizationAttributeDecoder::Initialize`: returns `false` if
the base `SequentialIntegerAttributeDecoder::Initialize` fails, then returns
`false` if the attribute's data type is not `DT_FLOAT32`, else `true`.
Neither step touches the decoder buffer (the base initialization is, per the
spec, pure configuration), so the function is a pure predicate of the base
outcome and the scalar type. -/
def initDecoder (baseInitOk : Bool) (dt : DataType) : Bool :=
  if !baseInitOk then false
  else if dt ≠ DataType.DT_FLOAT32 then false
  else true

/-- Modelled from the spec: the encoder-side quantization of one component,
`code = round((value - min_value[c]) / range * max_quantized_value)` clamped
to `[0, max_quantized_value]` (the encoder is not part of the source
sample). -/
def quantize (min_value range : ℚ) (max_quantized_value : Int) (v : ℚ) : Int :=
  max 0 (min (round ((v - min_value) / range * (max_quantized_value : ℚ)))
             max_quantized_value)

/-- The decoder-side reconstruction of one component:
`DequantizeFloat(code) + min_value[c]` with the `Dequantizer` initialized
with `(range, max_quantized_value)`. -/
def dequantize (min_value range : ℚ) (max_quantized_value : Int)
    (code : Int) : ℚ :=
  (Dequantizer.init range max_quantized_value).dequantizeFloat code + min_value

/-- The orchestrator state relevant to attribute dependencies: the id of the
attributes-encoder currently being initialized, the attribute-to-encoder map
(`-1` meaning the attribute is not yet assigned to any encoder), and the
recorded dependency edges (child encoder, parent encoder). -/
structure EncoderState where
  cur_encoder : Nat
  attribute_to_encoder_map : List Int
  deps : List (Nat × Nat)
deriving DecidableEq

/-- The encoder owning attribute `att_id`, if the id is valid and assigned. -/
def attEncoderOf (m : List Int) (att_id : Int) : Option Nat :=
  if att_id < 0 then none
  else
    match m.get? att_id.toNat with
    | none => none
    | some e => if e < 0 then none else some e.toNat

/-- Modelled from the spec: `PointCloudEncoder::MarkParentAttribute`
(declared in `point_cloud_encoder.h`; its body is not part of the source
sample).  Declaring a parent attribute that is not yet assigned to any
encoder, or whose encoder is the one currently being initialized, is a fatal
error; otherwise the dependency edge is recorded. -/
def markParentAttribute (st : EncoderState) (parent_att_id : Int) :
    Option EncoderState :=
  match attEncoderOf st.attribute_to_encoder_map parent_att_id with
  | none => none
  | some pe =>
    if pe = st.cur_encoder then none
    else some ⟨st.cur_encoder, st.attribute_to_encoder_map,
               (st.cur_encoder, pe) :: st.deps⟩

/-- Encoder `i` is ready once every parent it depends on is already placed. -/
def ready (deps : List (Nat × Nat)) (done : List Nat) (i : Nat) : Bool :=
  deps.all fun e => decide (e.1 = i → e.2 ∈ done)

/-- The earliest-created encoder in `rem` that is ready (the stable
tie-break: creation order). -/
def pickFirst (deps : List (Nat × Nat)) (done : List Nat) :
    List Nat → Option Nat
  | [] => none
  | i :: rest => if ready deps done i then some i else pickFirst deps done rest

/-- Stable, cycle-rejecting topological sort: repeatedly emit the
earliest-created encoder whose parents are all placed; fail when unplaced
encoders remain but none is ready (a dependency cycle). -/
def kahnLoop (deps : List (Nat × Nat)) :
    Nat → List Nat → List Nat → Option (List Nat)
  | _, [], done => some done.reverse
  | 0, _ :: _, _ => none
  | fuel + 1, r :: rs, done =>
    match pickFirst deps done (r :: rs) with
    | none => none
    | some i => kahnLoop deps fuel ((r :: rs).erase i) (i :: done)

/-- Modelled from the spec: `PointCloudEncoder::RearrangeAttributesEncoders`
(declared in `point_cloud_encoder.h`; its body is not part of the source
sample).  Topologically sorts the encoder ids `0..n` by the dependency edges
declared via `MarkParentAttribute`, preserving creation order among ready
encoders, and fails when the edges contain a cycle. -/
def rearrangeAttributesEncoders (n : Nat) (deps : List (Nat × Nat)) :
    Option (List Nat) :=
  kahnLoop deps n (List.range n) []

/-- Invariant of the (reversed) accumulator of `kahnLoop`: every placed
encoder's parents were placed strictly before it. -/
def EdgeInv (deps : List (Nat × Nat)) (done : List Nat) : Prop :=
  ∀ c p : Nat, (c, p) ∈ deps → ∀ l1 l2 : List Nat, done = l1 ++ c :: l2 → p ∈ l2

theorem int32Wrap_eq_self (z : Int) (h1 : -(2 ^ 31) ≤ z) (h2 : z < 2 ^ 31) :
    int32Wrap z = z := by
  have e1 : (2 : Int) ^ 31 = 2147483648 := by norm_num
  have e2 : (2 : Int) ^ 32 = 4294967296 := by norm_num
  rw [int32Wrap, e1, e2]
  rw [e1] at h1 h2
  omega

theorem maxQuantizedValue_pow (bits : Nat) (h : bits ≤ 31) :
    maxQuantizedValue bits = 2 ^ bits - 1 := by
  by_cases h31 : bits = 31
  · subst h31; decide
  · have hb : bits ≤ 30 := by omega
    have hmod : bits % 32 = bits := Nat.mod_eq_of_lt (by omega)
    have hpos : (0 : Int) < 2 ^ bits := pow_pos (by norm_num) bits
    have hle : (2 : Int) ^ bits ≤ 2 ^ 30 := pow_le_pow_right₀ (by norm_num) hb
    have h30 : (2 : Int) ^ 30 < 2 ^ 31 := by norm_num
    rw [maxQuantizedValue, hmod,
        int32Wrap_eq_self ((2 : Int) ^ bits) (by linarith) (by linarith),
        int32Wrap_eq_self ((2 : Int) ^ bits - 1) (by linarith) (by linarith)]

theorem atOpt_eq_some : ∀ (l : List Int) (i : Nat), i < l.length →
    atOpt l i = some (atD l i)
  | [], _, h => absurd h (by simp)
  | _ :: _, 0, _ => rfl
  | _ :: xs, i + 1, h => atOpt_eq_some xs i (by simpa using h)

theorem dequantizeComps_eq (dq : Dequantizer) (minv : List ℚ)
    (codes : List Int) (base : Nat) :
    ∀ k c : Nat, base + c + k ≤ codes.length →
      dequantizeComps dq minv codes base c k =
        some ((List.range k).map fun j =>
          dq.dequantizeFloat (atD codes (base + c + j)) + minv.getD (c + j) 0) := by
  intro k
  induction k with
  | zero => intro c _; simp [dequantizeComps]
  | succ k ih =>
    intro c hle
    have hlt : base + c < codes.length := by omega
    rw [dequantizeComps, atOpt_eq_some codes (base + c) hlt, ih (c + 1) (by omega)]
    rw [List.range_succ_eq_map, List.map_cons, List.map_map]
    simp only [Function.comp_def, Nat.add_succ, Nat.succ_add, Nat.add_zero]

theorem dequantizeLoop_eq (dq : Dequantizer) (minv : List ℚ)
    (codes : List Int) (C : Nat) :
    ∀ k i : Nat, (i + k) * C ≤ codes.length →
      dequantizeLoop dq minv codes C i k =
        some ((List.range k).map fun j =>
          ((i + j) * (4 * C), (List.range C).map fun c =>
            dq.dequantizeFloat (atD codes ((i + j) * C + c)) + minv.getD c 0)) := by
  intro k
  induction k with
  | zero => intro i _; simp [dequantizeLoop]
  | succ k ih =>
    intro i hle
    have h1 : i * C + 0 + C ≤ codes.length := by
      have hstep : (i + 1) * C ≤ (i + (k + 1)) * C :=
        Nat.mul_le_mul_right C (by omega)
      have he : (i + 1) * C = i * C + C := by ring
      omega
    have h2 : (i + 1 + k) * C ≤ codes.length := by
      have : i + 1 + k = i + (k + 1) := by omega
      rw [this]; exact hle
    rw [dequantizeLoop, dequantizeComps_eq dq minv codes (i * C) C 0 h1, ih (i + 1) h2]
    rw [List.range_succ_eq_map, List.map_cons, List.map_map]
    simp only [Function.comp_def, Nat.add_succ, Nat.succ_add, Nat.add_zero, Nat.zero_add]

theorem dequantizeValues_eq (st : QuantState) (codes : List Int) (n : Nat)
    (hlen : st.num_components * n ≤ codes.length) :
    dequantizeValues st codes n =
      some (true, (List.range n).map fun i =>
        (i * (4 * st.num_components), (List.range st.num_components).map fun c =>
          (Dequantizer.init st.max_value_dif
              (maxQuantizedValue st.quantization_bits)).dequantizeFloat
              (atD codes (i * st.num_components + c)) + st.min_value.getD c 0)) := by
  have h0 : (0 + n) * st.num_components ≤ codes.length := by
    rw [Nat.zero_add, Nat.mul_comm]; exact hlen
  rw [dequantizeValues, dequantizeLoop_eq _ _ _ _ n 0 h0]
  simp only [Nat.zero_add]

theorem decodeQuantizedDataInfo_eq (f : List Nat → ℚ) (C : Nat)
    (b : DecoderBuffer) :
    decodeQuantizedDataInfo f C b =
      if b.pos + (4 * C + 5) ≤ b.data.length then
        some (⟨(List.range C).map
                  (fun c => f ((((b.data.drop b.pos).take (4 * C)).drop (4 * c)).take 4)),
               f ((b.data.drop (b.pos + 4 * C)).take 4),
               ((b.data.drop (b.pos + 4 * C + 4)).take 1).getD 0 0⟩,
              ⟨b.data, b.pos + (4 * C + 5)⟩)
      else none := by
  by_cases h1 : b.pos + 4 * C ≤ b.data.length
  · by_cases h2 : b.pos + 4 * C + 4 ≤ b.data.length
    · by_cases h3 : b.pos + 4 * C + 4 + 1 ≤ b.data.length
      · rw [if_pos (by omega)]
        have he : b.pos + 4 * C + 4 + 1 = b.pos + (4 * C + 5) := by omega
        have h3t : b.pos + (4 * C + 5) ≤ b.data.length := by omega
        simp only [decodeQuantizedDataInfo, DecoderBuffer.decode, h1, if_pos, h2, h3,
          he, h3t]
      · rw [if_neg (by omega)]
        simp [decodeQuantizedDataInfo, DecoderBuffer.decode, h1, h2, h3]
    · rw [if_neg (by omega)]
      simp [decodeQuantizedDataInfo, DecoderBuffer.decode, h1, h2]
  · rw [if_neg (by omega)]
    simp [decodeQuantizedDataInfo, DecoderBuffer.decode, h1]

theorem ready_iff (deps : List (Nat × Nat)) (done : List Nat) (i : Nat) :
    ready deps done i = true ↔ ∀ c p : Nat, (c, p) ∈ deps → c = i → p ∈ done := by
  rw [ready, List.all_eq_true]
  constructor
  · intro h c p hcp hci
    have := h (c, p) hcp
    simp only [decide_eq_true_eq] at this
    exact this hci
  · intro h e he
    simp only [decide_eq_true_eq]
    exact fun hci => h e.1 e.2 (by simpa using he) hci

theorem pickFirst_some (deps : List (Nat × Nat)) (done : List Nat) :
    ∀ (l : List Nat) (i : Nat), pickFirst deps done l = some i →
      i ∈ l ∧ ready deps done i = true
  | [], i, h => by simp [pickFirst] at h
  | x :: xs, i, h => by
    rw [pickFirst] at h
    split_ifs at h with hr
    · cases h; exact ⟨List.mem_cons_self x xs, hr⟩
    · obtain ⟨h1, h2⟩ := pickFirst_some deps done xs i h
      exact ⟨List.mem_cons_of_mem x h1, h2⟩

theorem edgeInv_nil (deps : List (Nat × Nat)) : EdgeInv deps [] := by
  intro c p _ l1 l2 h
  exact absurd h (by cases l1 <;> simp)

theorem edgeInv_cons (deps : List (Nat × Nat)) (done : List Nat) (i : Nat)
    (hr : ready deps done i = true) (hinv : EdgeInv deps done) :
    EdgeInv deps (i :: done) := by
  intro c p hcp l1 l2 heq
  cases l1 with
  | nil =>
    simp only [List.nil_append, List.cons.injEq] at heq
    obtain ⟨hic, hdl⟩ := heq
    rw [← hdl]
    exact (ready_iff deps done i).mp hr c p hcp hic.symm
  | cons a l1t =>
    simp only [List.cons_append, List.cons.injEq] at heq
    exact hinv c p hcp l1t l2 heq.2

theorem edgeInv_reverse (deps : List (Nat × Nat)) (done order : List Nat)
    (hinv : EdgeInv deps done) (h : order = done.reverse) :
    ∀ c p : Nat, (c, p) ∈ deps → ∀ l1 l2, order = l1 ++ c :: l2 → p ∈ l1 := by
  intro c p hcp l1 l2 horder
  have hdone : done = l2.reverse ++ c :: l1.reverse := by
    have hd : done = order.reverse := by rw [h, List.reverse_reverse]
    rw [hd, horder]
    simp [List.reverse_append]
  exact List.mem_reverse.mp (hinv c p hcp l2.reverse l1.reverse hdone)

theorem kahnLoop_edge (deps : List (Nat × Nat)) :
    ∀ (fuel : Nat) (rem done order : List Nat),
      EdgeInv deps done → kahnLoop deps fuel rem done = some order →
      ∀ c p : Nat, (c, p) ∈ deps → ∀ l1 l2, order = l1 ++ c :: l2 → p ∈ l1 := by
  intro fuel
  induction fuel with
  | zero =>
    intro rem done order hinv hk
    cases rem with
    | nil =>
      rw [kahnLoop] at hk
      exact edgeInv_reverse deps done order hinv (Option.some.inj hk).symm
    | cons r rs => simp [kahnLoop] at hk
  | succ fuel ih =>
    intro rem done order hinv hk
    cases rem with
    | nil =>
      rw [kahnLoop] at hk
      exact edgeInv_reverse deps done order hinv (Option.some.inj hk).symm
    | cons r rs =>
      rw [kahnLoop] at hk
      cases hp : pickFirst deps done (r :: rs) with
      | none => rw [hp] at hk; cases hk
      | some i =>
        rw [hp] at hk
        have hready := (pickFirst_some deps done (r :: rs) i hp).2
        exact ih _ _ order (edgeInv_cons deps done i hready hinv) hk

theorem kahnLoop_noDeps :
    ∀ (rem : List Nat) (fuel : Nat) (done : List Nat), rem.length ≤ fuel →
      kahnLoop [] fuel rem done = some (done.reverse ++ rem) := by
  intro rem
  induction rem with
  | nil =>
    intro fuel done _
    cases fuel <;> simp [kahnLoop]
  | cons r rs ih =>
    intro fuel done hlen
    cases fuel with
    | zero => simp at hlen
    | succ f =>
      have hpick : pickFirst [] done (r :: rs) = some r := by
        simp [pickFirst, ready]
      rw [kahnLoop, hpick]
      show kahnLoop [] f ((r :: rs).erase r) (r :: done) = some (done.reverse ++ r :: rs)
      rw [List.erase_cons_head, ih f (r :: done) (by simpa using hlen)]
      simp

theorem kahnLoop_stall (deps : List (Nat × Nat)) (S : List Nat) (hne : S ≠ [])
    (hdep : ∀ s ∈ S, ∃ p ∈ S, (s, p) ∈ deps) :
    ∀ (fuel : Nat) (rem done : List Nat),
      (∀ s ∈ S, s ∈ rem) → (∀ s ∈ S, s ∉ done) →
      kahnLoop deps fuel rem done = none := by
  intro fuel
  induction fuel with
  | zero =>
    intro rem done hrem _
    cases rem with
    | nil =>
      obtain ⟨s, hs⟩ := List.exists_mem_of_ne_nil S hne
      exact absurd (hrem s hs) (by simp)
    | cons r rs => simp [kahnLoop]
  | succ fuel ih =>
    intro rem done hrem hdone
    cases rem with
    | nil =>
      obtain ⟨s, hs⟩ := List.exists_mem_of_ne_nil S hne
      exact absurd (hrem s hs) (by simp)
    | cons r rs =>
      rw [kahnLoop]
      cases hp : pickFirst deps done (r :: rs) with
      | none => rfl
      | some i =>
        have hiS : i ∉ S := by
          intro hiS
          obtain ⟨p, hpS, hip⟩ := hdep i hiS
          have hr := (pickFirst_some deps done (r :: rs) i hp).2
          exact hdone p hpS ((ready_iff deps done i).mp hr i p hip rfl)
        apply ih
        · intro s hs
          have hsi : s ≠ i := fun h => hiS (by rw [← h]; exact hs)
          exact (List.mem_erase_of_ne hsi).mpr (hrem s hs)
        · intro s hs hmem
          rcases List.mem_cons.mp hmem with h | h
          · exact hiS (by rw [← h]; exact hs)
          · exact hdone s hs h

/-- C1: for every successfully decoded header with component count `C` and bit
depth `bits` (in the header's valid range, so that `(1 << bits) - 1` equals
`2 ^ bits - 1`), and an integer array holding the `C * num_values` codes the
base decoder produced, `DequantizeValues(num_values)` returns `true` and
writes, for each point `i` and component `c`, the float
`DequantizeFloat(code)` plus `min_value[c]` — codes consumed in order, one per
point per component (`codes[i * C + c]`), a single `Dequantizer` initialized
once with `(range, 2 ^ bits - 1)` — component-interleaved at byte offset
`i * C * sizeof(float) = i * (4 * C)` of the attribute buffer. -/
theorem dequantizeValues_reconstruction (st : QuantState) (codes : List Int)
    (n : Nat) (hbits : st.quantization_bits ≤ 31)
    (hlen : st.num_components * n ≤ codes.length) :
    dequantizeValues st codes n =
      some (true, (List.range n).map fun i =>
        (i * (4 * st.num_components), (List.range st.num_components).map fun c =>
          (Dequantizer.init st.max_value_dif
              ((2 : Int) ^ st.quantization_bits - 1)).dequantizeFloat
              (atD codes (i * st.num_components + c)) + st.min_value.getD c 0)) := by
  rw [dequantizeValues_eq st codes n hlen,
      maxQuantizedValue_pow st.quantization_bits hbits]

/-- Witness for C1 at a concrete input: one component, one point, one bit,
range 1, minimum 0, code 1 decodes to the single float 1 written at byte
offset 0. -/
theorem dequantizeValues_reconstruction_witness :
    dequantizeValues ⟨1, 1, 1, [0]⟩ [1] 1 = some (true, [(0, [(1 : ℚ)])]) := by
  rw [dequantizeValues_reconstruction ⟨1, 1, 1, [0]⟩ [1] 1 (by norm_num) (by norm_num)]
  norm_num [Dequantizer.init, Dequantizer.dequantizeFloat, atD, atOpt, List.range_succ]

/-- C2 (code bug evidence): the stream may claim any `bits` byte —
`DecodeQuantizedDataInfo` stores it with no range check and succeeds, here
with `bits = 255`, far outside `1..31`; the dequantization stage then runs
(and "succeeds") instead of the decode failing.  The `(1 << bits)` shift this
leads to in `DequantizeValues` is undefined behaviour for `bits > 31` in C++;
the spec requires the decode to fail instead. -/
theorem decodeQuantizedDataInfo_no_bits_check :
    decodeQuantizedDataInfo (fun _ => (0 : ℚ)) 1 ⟨[0, 0, 0, 0, 0, 0, 0, 0, 255], 0⟩ =
      some (⟨[0], 0, 255⟩, ⟨[0, 0, 0, 0, 0, 0, 0, 0, 255], 9⟩)
    ∧ 31 < 255
    ∧ dequantizeValues ⟨1, 255, 0, [0]⟩ [0] 1 = some (true, [(0, [(0 : ℚ)])]) := by
  refine ⟨by decide, by norm_num, ?_⟩
  rw [dequantizeValues_eq ⟨1, 255, 0, [0]⟩ [0] 1 (by norm_num)]
  have hscale : (Dequantizer.init (0 : ℚ) (maxQuantizedValue 255)).scale = 0 := by
    simp only [Dequantizer.init]
    split_ifs <;> simp
  norm_num [Dequantizer.dequantizeFloat, hscale, List.range_succ]

/-- C3: `DecodeIntegerValues` first reads the header in the fixed order
(`C` floats, one float, one byte — `4 * C + 5` bytes); the header read
succeeds exactly when that many bytes remain, never moves the position past
the buffer end, yields `C` minimum values, and only on success is the base
class integer decode invoked. -/
theorem decodeIntegerValues_header_first (f : List Nat → ℚ) (C : Nat)
    (b : DecoderBuffer) :
    ((decodeQuantizedDataInfo f C b).isSome = true ↔
      b.pos + (4 * C + 5) ≤ b.data.length)
    ∧ (∀ (hdr : QuantHeader) (b2 : DecoderBuffer),
        decodeQuantizedDataInfo f C b = some (hdr, b2) →
        b2.data = b.data ∧ b2.pos = b.pos + (4 * C + 5) ∧
        b2.pos ≤ b.data.length ∧ hdr.min_value.length = C)
    ∧ (∀ (α : Type) (base : QuantHeader → DecoderBuffer → Option α),
        (decodeQuantizedDataInfo f C b = none →
          decodeIntegerValues f C base b = none)
        ∧ ∀ r : α, decodeIntegerValues f C base b = some r →
            ∃ hdr b2, decodeQuantizedDataInfo f C b = some (hdr, b2) ∧
              base hdr b2 = some r) := by
  refine ⟨?_, ?_, ?_⟩
  · rw [decodeQuantizedDataInfo_eq]
    split_ifs with h <;> simp [h]
  · intro hdr b2 hsome
    rw [decodeQuantizedDataInfo_eq] at hsome
    split_ifs at hsome with h
    · simp only [Option.some.injEq, Prod.mk.injEq] at hsome
      obtain ⟨hh, hb⟩ := hsome
      subst hh
      subst hb
      refine ⟨rfl, rfl, ?_, ?_⟩
      · simpa using h
      · simp
  · intro α base
    constructor
    · intro hnone
      rw [decodeIntegerValues, hnone]
    · intro r hr
      rw [decodeIntegerValues] at hr
      cases hq : decodeQuantizedDataInfo f C b with
      | none => rw [hq] at hr; cases hr
      | some pr =>
        obtain ⟨hdr, b1⟩ := pr
        rw [hq] at hr
        exact ⟨hdr, b1, rfl, hr⟩

/-- Witness for C3 at a concrete input: with `C = 1` and exactly
`4 * 1 + 5 = 9` bytes remaining, the header read succeeds. -/
theorem decodeIntegerValues_header_first_witness :
    (decodeQuantizedDataInfo (fun _ => (0 : ℚ)) 1 ⟨List.replicate 9 0, 0⟩).isSome = true :=
  (decodeIntegerValues_header_first (fun _ => (0 : ℚ)) 1 ⟨List.replicate 9 0, 0⟩).1.mpr
    (by decide)

/-- C4: `Initialize` succeeds exactly when the base integer-sequence
decoder's initialization succeeds and the attribute's scalar type is
`DT_FLOAT32`; any other scalar type is rejected.  The function is a pure
predicate of the base outcome and the data type — no buffer appears in its
type, reflecting that initialization performs no buffer read or write. -/
theorem initDecoder_type_gate (baseInitOk : Bool) (dt : DataType) :
    (initDecoder baseInitOk dt = true ↔
      baseInitOk = true ∧ dt = DataType.DT_FLOAT32)
    ∧ (dt ≠ DataType.DT_FLOAT32 → initDecoder baseInitOk dt = false) := by
  cases baseInitOk <;> by_cases h : dt = DataType.DT_FLOAT32 <;>
    simp [initDecoder, h]

/-- Witness for C4 at a concrete input: an `INT8` attribute is rejected even
when the base initialization succeeded. -/
theorem initDecoder_type_gate_witness :
    initDecoder true DataType.DT_INT8 = false :=
  (initDecoder_type_gate true DataType.DT_INT8).2 (by decide)

/-- C6: in the degenerate cases (`bits = 0`, hence `max_quantized_value = 0`
and the `Dequantizer.Init` guard takes `scale = 0`, or `range = 0`), there is
no division by zero and every reconstructed component equals the recorded
minimum `min_value[c]`. -/
theorem dequantizeValues_degenerate (st : QuantState) (codes : List Int)
    (n : Nat) (hdeg : st.quantization_bits = 0 ∨ st.max_value_dif = 0)
    (hlen : st.num_components * n ≤ codes.length) :
    dequantizeValues st codes n =
      some (true, (List.range n).map fun i =>
        (i * (4 * st.num_components),
         (List.range st.num_components).map fun c => st.min_value.getD c 0)) := by
  have hscale : (Dequantizer.init st.max_value_dif
      (maxQuantizedValue st.quantization_bits)).scale = 0 := by
    rcases hdeg with h | h
    · have h0 : maxQuantizedValue st.quantization_bits = 0 := by rw [h]; decide
      rw [h0]
      simp [Dequantizer.init]
    · rw [h]
      simp only [Dequantizer.init]
      split_ifs <;> simp
  rw [dequantizeValues_eq st codes n hlen]
  simp only [Dequantizer.dequantizeFloat, hscale, mul_zero, zero_add]

/-- Witness for C6 at a concrete input: zero bit depth, one point, one
component with minimum 5 decodes to exactly 5. -/
theorem dequantizeValues_degenerate_witness :
    dequantizeValues ⟨1, 0, 1, [5]⟩ [3] 1 = some (true, [(0, [(5 : ℚ)])]) := by
  rw [dequantizeValues_degenerate ⟨1, 0, 1, [5]⟩ [3] 1 (Or.inl rfl) (by norm_num)]
  norm_num [List.range_succ]

/-- C10 counterexample: with one component, one point and an empty decoded
integer array (fewer than `C * num_values = 1` entries), `StoreValues` does
not return `true`: the bounds-checked `values()->at` access faults
(`std::vector::at` throws), modelled as `none`. -/
theorem storeValues_short_array_counterexample :
    storeValues ⟨1, 8, 1, [0]⟩ [] 1 = none := rfl

/-- C10 (amended): `StoreValues`/`DequantizeValues` have no `false`-returning
branch — every returned boolean is `true`, so no error is signaled from this
stage — and they do return `true` whenever the decoded integer array holds at
least `C * num_values` entries; with fewer entries the bounds-checked
`values()->at` access faults instead of returning. -/
theorem storeValues_no_false_branch (st : QuantState) (codes : List Int)
    (n : Nat) :
    (∀ res : Bool × List (Nat × List ℚ),
      storeValues st codes n = some res → res.1 = true)
    ∧ (st.num_components * n ≤ codes.length →
        (storeValues st codes n).isSome = true) := by
  constructor
  · intro res hres
    rw [storeValues, dequantizeValues] at hres
    split at hres
    · cases hres
    · cases hres
      rfl
  · intro hlen
    rw [storeValues, dequantizeValues_eq st codes n hlen]
    rfl

/-- Witness for C10 at a concrete input: with enough codes the stage
returns a result (whose boolean is `true` by the theorem). -/
theorem storeValues_no_false_branch_witness :
    (storeValues ⟨1, 1, 1, [0]⟩ [1] 1).isSome = true :=
  (storeValues_no_false_branch ⟨1, 1, 1, [0]⟩ [1] 1).2 (by norm_num)

/-- C5 counterexample: the claim's stability clause fails as stated.  With
three encoders and the single edge "encoder 0 depends on encoder 2", the
resolved order is `[1, 2, 0]`: encoders 0 and 1 have no dependency relation
in either direction, were created in the order 0 before 1, yet 1 precedes 0
in the output.  (No order can both respect the edge and keep every
dependency-unrelated pair in creation order here: keeping (0,1) and (1,2) in
creation order would force 0 before 2, contradicting the edge.) -/
theorem rearrange_stability_counterexample :
    rearrangeAttributesEncoders 3 [(0, 2)] = some [1, 2, 0]
    ∧ (0, 1) ∉ [((0 : Nat), (2 : Nat))] ∧ (1, 0) ∉ [((0 : Nat), (2 : Nat))] := by
  decide

/-- C5 (amended): `RearrangeAttributesEncoders` places every encoder before
all encoders that declared it as a dependency; when no dependency edges exist
the creation order is preserved verbatim (the sort always emits the
earliest-created ready encoder); it fails whenever the declared edges contain
a cycle (a nonempty set of encoders each depending on another member — the
node set of any cycle); in particular, for encoders A (no parent) and B
(parent owned by A), A precedes B regardless of creation order, and mutual
dependence of A and B is rejected. -/
theorem rearrange_topological_order (n : Nat) (deps : List (Nat × Nat)) :
    (∀ order : List Nat, rearrangeAttributesEncoders n deps = some order →
      ∀ c p : Nat, (c, p) ∈ deps → ∀ l1 l2, order = l1 ++ c :: l2 → p ∈ l1)
    ∧ (deps = [] → rearrangeAttributesEncoders n deps = some (List.range n))
    ∧ (∀ S : List Nat, S ≠ [] → (∀ s ∈ S, s < n) →
        (∀ s ∈ S, ∃ p ∈ S, (s, p) ∈ deps) →
        rearrangeAttributesEncoders n deps = none)
    ∧ rearrangeAttributesEncoders 2 [(1, 0)] = some [0, 1]
    ∧ rearrangeAttributesEncoders 2 [(0, 1)] = some [1, 0]
    ∧ rearrangeAttributesEncoders 2 [(0, 1), (1, 0)] = none := by
  refine ⟨?_, ?_, ?_, by decide, by decide, by decide⟩
  · intro order hord
    unfold rearrangeAttributesEncoders at hord
    exact kahnLoop_edge deps n (List.range n) [] order (edgeInv_nil deps) hord
  · intro h
    subst h
    unfold rearrangeAttributesEncoders
    simpa using kahnLoop_noDeps (List.range n) n [] (by simp)
  · intro S hne hlt hdep
    unfold rearrangeAttributesEncoders
    exact kahnLoop_stall deps S hne hdep n (List.range n) []
      (fun s hs => List.mem_range.mpr (hlt s hs)) (fun s _ => List.not_mem_nil s)

/-- Witness for C5 at a concrete input: mutual dependence of two encoders is
rejected via the cycle set `{0, 1}`. -/
theorem rearrange_topological_order_witness :
    rearrangeAttributesEncoders 2 [(0, 1), (1, 0)] = none :=
  (rearrange_topological_order 2 [(0, 1), (1, 0)]).2.2.1 [0, 1] (by decide)
    (by decide) (by decide)

/-- C7: quantizing a float `v` in `[min_value, min_value + range]` with bit
depth `bits ≥ 1` (`max_quantized_value = 2 ^ bits - 1`) and dequantizing it
reconstructs `v` to within `range / (2 ^ bits - 1)`. -/
theorem quantize_dequantize_round_trip (minv range : ℚ) (bits : Nat) (v : ℚ)
    (hbits : 1 ≤ bits) (hlo : minv ≤ v) (hhi : v ≤ minv + range) :
    |dequantize minv range (2 ^ bits - 1) (quantize minv range (2 ^ bits - 1) v) - v|
      ≤ range / ((2 : ℚ) ^ bits - 1) := by
  have h2 : (2 : Int) ≤ 2 ^ bits := by
    calc (2 : Int) = 2 ^ 1 := (pow_one 2).symm
    _ ≤ 2 ^ bits := pow_le_pow_right₀ (by norm_num) hbits
  have hMne : (2 ^ bits - 1 : Int) ≠ 0 := by omega
  have hM1Q : (1 : ℚ) ≤ ((2 ^ bits - 1 : Int) : ℚ) := by
    exact_mod_cast (by omega : (1 : Int) ≤ 2 ^ bits - 1)
  have hMQpos : (0 : ℚ) < ((2 ^ bits - 1 : Int) : ℚ) := by linarith
  have hMQ : ((2 ^ bits - 1 : Int) : ℚ) = (2 : ℚ) ^ bits - 1 := by push_cast; ring
  have hr0 : (0 : ℚ) ≤ range := by linarith
  have hdeq : ∀ code : Int,
      dequantize minv range (2 ^ bits - 1) code =
        (code : ℚ) * (range / ((2 ^ bits - 1 : Int) : ℚ)) + minv := by
    intro code
    rw [dequantize, Dequantizer.init, if_neg hMne, Dequantizer.dequantizeFloat]
  rcases eq_or_lt_of_le hr0 with hr | hr
  · subst hr
    have hveq : v = minv := le_antisymm (by simpa using hhi) hlo
    subst hveq
    rw [quantize, sub_self, zero_div, zero_mul, round_zero,
        min_eq_left (by omega : (0 : Int) ≤ 2 ^ bits - 1), max_self, hdeq 0]
    simp
  · have hrne : range ≠ 0 := ne_of_gt hr
    have hEne : ((2 ^ bits - 1 : Int) : ℚ) ≠ 0 := ne_of_gt hMQpos
    have ht0 : 0 ≤ (v - minv) / range := div_nonneg (by linarith) hr0
    have ht1 : (v - minv) / range ≤ 1 := (div_le_one hr).mpr (by linarith)
    have hx0 : 0 ≤ (v - minv) / range * ((2 ^ bits - 1 : Int) : ℚ) :=
      mul_nonneg ht0 (le_of_lt hMQpos)
    have hxM : (v - minv) / range * ((2 ^ bits - 1 : Int) : ℚ) ≤
        ((2 ^ bits - 1 : Int) : ℚ) := by
      calc (v - minv) / range * ((2 ^ bits - 1 : Int) : ℚ)
          ≤ 1 * ((2 ^ bits - 1 : Int) : ℚ) :=
            mul_le_mul_of_nonneg_right ht1 (le_of_lt hMQpos)
      _ = ((2 ^ bits - 1 : Int) : ℚ) := one_mul _
    have hround0 : (0 : Int) ≤
        round ((v - minv) / range * ((2 ^ bits - 1 : Int) : ℚ)) := by
      rw [round_eq]
      exact Int.floor_nonneg.mpr (by linarith)
    have hroundM : round ((v - minv) / range * ((2 ^ bits - 1 : Int) : ℚ)) ≤
        2 ^ bits - 1 := by
      rw [round_eq]
      calc ⌊(v - minv) / range * ((2 ^ bits - 1 : Int) : ℚ) + 1 / 2⌋
          ≤ ⌊((2 ^ bits - 1 : Int) : ℚ) + 1 / 2⌋ := Int.floor_le_floor (by linarith)
      _ = 2 ^ bits - 1 := by
          rw [add_comm, Int.floor_add_int]
          norm_num
    have hclamp : quantize minv range (2 ^ bits - 1) v =
        round ((v - minv) / range * ((2 ^ bits - 1 : Int) : ℚ)) := by
      rw [quantize, min_eq_left hroundM, max_eq_right hround0]
    rw [hclamp, hdeq]
    have hE2 : ((2 : ℚ) ^ bits - 1) ≠ 0 := by rw [← hMQ]; exact hEne
    have hkey : ((round ((v - minv) / range * ((2 ^ bits - 1 : Int) : ℚ)) : Int) : ℚ) *
          (range / ((2 ^ bits - 1 : Int) : ℚ)) + minv - v =
        (((round ((v - minv) / range * ((2 ^ bits - 1 : Int) : ℚ)) : Int) : ℚ) -
            (v - minv) / range * ((2 ^ bits - 1 : Int) : ℚ)) *
          (range / ((2 ^ bits - 1 : Int) : ℚ)) := by
      field_simp [hrne, hE2]
      ring
    rw [hkey, abs_mul]
    have habs : |((round ((v - minv) / range * ((2 ^ bits - 1 : Int) : ℚ)) : Int) : ℚ) -
        (v - minv) / range * ((2 ^ bits - 1 : Int) : ℚ)| ≤ 1 / 2 := by
      rw [abs_sub_comm]
      exact abs_sub_round _
    have hsn : 0 ≤ range / ((2 ^ bits - 1 : Int) : ℚ) :=
      div_nonneg hr0 (le_of_lt hMQpos)
    rw [abs_of_nonneg hsn, ← hMQ]
    calc |((round ((v - minv) / range * ((2 ^ bits - 1 : Int) : ℚ)) : Int) : ℚ) -
          (v - minv) / range * ((2 ^ bits - 1 : Int) : ℚ)| *
          (range / ((2 ^ bits - 1 : Int) : ℚ))
        ≤ 1 / 2 * (range / ((2 ^ bits - 1 : Int) : ℚ)) :=
          mul_le_mul_of_nonneg_right habs hsn
    _ ≤ range / ((2 ^ bits - 1 : Int) : ℚ) := by linarith

/-- Witness for C7 at a concrete input: `v = 0` in `[0, 0 + 1]` with one bit
round-trips within `1 / (2 ^ 1 - 1) = 1`. -/
theorem quantize_dequantize_round_trip_witness :
    |dequantize 0 1 (2 ^ 1 - 1) (quantize 0 1 (2 ^ 1 - 1) 0) - 0| ≤
      1 / ((2 : ℚ) ^ 1 - 1) :=
  quantize_dequantize_round_trip 0 1 1 0 (le_refl 1) (le_refl 0) (by norm_num)

/-- C8 counterexample: a `Dequantizer` initialized with a negative range
(`Init(-1, 1)`, which a hostile stream can produce, since `max_value_dif_` is
read raw with no sign check) is strictly decreasing: for codes `0 < 1` in
`[0, max_quantized_value = 1]`, `DequantizeFloat(0) = 0 > -1 =
DequantizeFloat(1)`. -/
theorem dequantizeFloat_monotone_counterexample :
    (0 : Int) < 1 ∧ (1 : Int) ≤ 1 ∧
    ¬ ((Dequantizer.init (-1) 1).dequantizeFloat 0 ≤
        (Dequantizer.init (-1) 1).dequantizeFloat 1) := by
  refine ⟨by norm_num, le_refl 1, ?_⟩
  norm_num [Dequantizer.init, Dequantizer.dequantizeFloat]

/-- C8 (amended): for a `Dequantizer` initialized with a nonnegative range
(as every encoder-produced header has) and nonnegative `max_quantized_value`,
`DequantizeFloat` is monotone on codes `a < b` in `[0, max_quantized_value]`;
and unconditionally `DequantizeFloat(code) = code * scale`, a pure
deterministic function of its argument. -/
theorem dequantizeFloat_monotone (range : ℚ) (maxq : Int) (a b : Int)
    (hr : 0 ≤ range) (hm : 0 ≤ maxq) (ha : 0 ≤ a) (hab : a < b) (hb : b ≤ maxq) :
    (Dequantizer.init range maxq).dequantizeFloat a ≤
        (Dequantizer.init range maxq).dequantizeFloat b
    ∧ ∀ code : Int, (Dequantizer.init range maxq).dequantizeFloat code =
        (code : ℚ) * (Dequantizer.init range maxq).scale := by
  constructor
  · have hscale : 0 ≤ (Dequantizer.init range maxq).scale := by
      rw [Dequantizer.init]
      split_ifs with h
      · simp
      · have hmq : (0 : ℚ) < (maxq : ℚ) := by
          exact_mod_cast lt_of_le_of_ne hm (Ne.symm h)
        simpa using div_nonneg hr (le_of_lt hmq)
    rw [Dequantizer.dequantizeFloat, Dequantizer.dequantizeFloat]
    exact mul_le_mul_of_nonneg_right (by exact_mod_cast le_of_lt hab) hscale
  · intro code
    rfl

/-- Witness for C8 at a concrete input: with range 1 and one-bit codes,
`DequantizeFloat(0) ≤ DequantizeFloat(1)`. -/
theorem dequantizeFloat_monotone_witness :
    (Dequantizer.init 1 1).dequantizeFloat 0 ≤
      (Dequantizer.init 1 1).dequantizeFloat 1 :=
  (dequantizeFloat_monotone 1 1 0 1 (by norm_num) (by norm_num) (le_refl 0)
    (by norm_num) (le_refl 1)).1

/-- C9: `MarkParentAttribute(parent_att_id)` fails exactly when the parent
attribute id resolves to no encoder (invalid or unassigned id) or to the
encoder currently being initialized (self-dependency); otherwise it records
the dependency edge and succeeds. -/
theorem markParentAttribute_spec (st : EncoderState) (p : Int) :
    (markParentAttribute st p = none ↔
      attEncoderOf st.attribute_to_encoder_map p = none ∨
      attEncoderOf st.attribute_to_encoder_map p = some st.cur_encoder)
    ∧ ∀ pe : Nat, attEncoderOf st.attribute_to_encoder_map p = some pe →
        pe ≠ st.cur_encoder →
        markParentAttribute st p =
          some ⟨st.cur_encoder, st.attribute_to_encoder_map,
                (st.cur_encoder, pe) :: st.deps⟩ := by
  cases h : attEncoderOf st.attribute_to_encoder_map p with
  | none =>
    constructor
    · simp [markParentAttribute, h]
    · intro pe hpe
      simp at hpe
  | some pe0 =>
    by_cases hc : pe0 = st.cur_encoder
    · subst hc
      constructor
      · simp [markParentAttribute, h]
      · intro pe hpe hne
        injection hpe with hpe
        exact absurd hpe.symm hne
    · constructor
      · simp [markParentAttribute, h, hc]
      · intro pe hpe hne
        injection hpe with hpe
        subst hpe
        simp [markParentAttribute, h, hc]

/-- Witness for C9 at a concrete input: declaring a parent attribute whose
map entry is `-1` (not yet assigned to any encoder) fails. -/
theorem markParentAttribute_spec_witness :
    markParentAttribute ⟨0, [-1], []⟩ 0 = none :=
  (markParentAttribute_spec ⟨0, [-1], []⟩ 0).1.mpr (Or.inl (by decide))

end Draco
